import Mathlib

/-!
Verification of the iotagent-ul core: the Ultralight 2.0 payload codec
(`lib/ulParser.js`) and the transport-binding dispatcher / agent lifecycle
(`lib/iotagent-ul.js`).

JavaScript strings are modelled as lists of characters (`Str`); throwing
functions are modelled in the `Except` monad.  `splitOnChar` mirrors
`String.prototype.split` with a single-character separator, including the
JS behaviour of returning `[""]` for the empty string and keeping empty
segments around adjacent separators.
-/

namespace UL

/-- Characters of a wire payload: a JavaScript string. -/
abbrev Str := List Char

/-- Auxiliary for `splitOnChar`: returns the segment before the first
separator, paired with the list of the remaining segments. -/
def splitAux (sep : Char) : Str → Str × List Str
  | [] => ([], [])
  | c :: rest =>
    let r := splitAux sep rest
    if c = sep then ([], r.1 :: r.2)
    else (c :: r.1, r.2)

/-- JavaScript `s.split(sep)` for a single-character separator: always
returns at least one (possibly empty) segment. -/
def splitOnChar (sep : Char) (l : Str) : List Str :=
  (splitAux sep l).1 :: (splitAux sep l).2

/-- JavaScript `parts.join(sep)` for a single-character separator. -/
def joinChar (sep : Char) : List Str → Str
  | [] => []
  | [p] => p
  | p :: ps => p ++ sep :: joinChar sep ps

/-- The `errors.ParseError` thrown by the parser, carrying its message. -/
structure ParseError where
  message : Str
deriving DecidableEq, Repr

/-- A decoded measure group: a JS object, i.e. an insertion-ordered
association list of string keys and values. -/
abbrev Group := List (Str × Str)

/-- JS `collection[key] = value` on an insertion-ordered object: updates the
value in place when the key exists, otherwise appends the new pair. -/
def setAttr (collection : Group) (key value : Str) : Group :=
  if collection.any (fun p => p.1 == key) then
    collection.map (fun p => if p.1 = key then (key, value) else p)
  else
    collection ++ [(key, value)]

/-- `addAttribute(separator)` from `ulParser.js`: splits `newAttr` on the
separator, requires exactly two fields, and stores the pair. -/
def addAttribute (separator : Char) (collection : Group) (newAttr : Str) :
    Except ParseError Group :=
  match splitOnChar separator newAttr with
  | [k, v] => .ok (setAttr collection k v)
  | _ => .error ⟨("Extracting attribute:").toList ++ newAttr⟩

/-- `addAttributePair` from `ulParser.js`: requires a length-2 array and
stores the pair as an attribute of the collection. -/
def addAttributePair (collection : Group) (pair : List Str) :
    Except ParseError Group :=
  match pair with
  | [k, v] => .ok (setAttr collection k v)
  | _ => .error ⟨("Extracting attribute:").toList⟩

/-- `chunk(list, 2)` from `ulParser.js`: divides a list into chunks of two
(the source is only ever called with size 2). -/
def chunk : List Str → List (List Str)
  | [] => []
  | [a] => [[a]]
  | a :: b :: rest => [a, b] :: chunk rest

/-- `parseGroup` from `ulParser.js`: splits a group on `|`, rejects an
empty, odd-length or empty-token attribute list, and folds the consecutive
token pairs into an object. -/
def parseGroup (group : Str) : Except ParseError Group :=
  let attributes := splitOnChar '|' group
  if attributes.length = 0 ∨ attributes.length % 2 ≠ 0 ∨
      (attributes.filter List.isEmpty).length > 0 then
    .error ⟨("Parsing group:").toList ++ group⟩
  else
    (chunk attributes).foldlM addAttributePair []

/-- JS `groups.map(parseGroup)`: left-to-right, the first thrown
`ParseError` propagates. -/
def mapGroups : List Str → Except ParseError (List Group)
  | [] => .ok []
  | g :: gs => do
    let grp ← parseGroup g
    let rest ← mapGroups gs
    pure (grp :: rest)

/-- `parse` from `ulParser.js` (the spec's `parseMeasures`): split the
payload on `#` and parse every group. -/
def parse (payload : Str) : Except ParseError (List Group) :=
  mapGroups (splitOnChar '#' payload)

/-- The object returned by `command`: `deviceData[1]` is `undefined` when
the header has no second `@`-segment, hence an `Option`. -/
structure CommandInvocation where
  deviceId : Str
  command : Option Str
  params : Group
deriving DecidableEq, Repr

/-- `command` from `ulParser.js` (the spec's `parseCommand`). -/
def command (payload : Str) : Except ParseError CommandInvocation :=
  let fields := splitOnChar '|' payload
  if fields.length < 1 ∨ '@' ∉ fields.headD [] then
    .error ⟨("Parsing command:").toList ++ payload⟩
  else do
    let deviceData := splitOnChar '@' (fields.headD [])
    let commandData ← (fields.drop 1).foldlM (addAttribute '=') []
    pure { deviceId := deviceData.headD []
           command := deviceData[1]?
           params := commandData }

/-- The object returned by `result`: both `deviceData[1]` and `fields[1]`
may be `undefined`, hence `Option`s. -/
structure CommandResult where
  deviceId : Str
  command : Option Str
  result : Option Str
deriving DecidableEq, Repr

/-- `result` from `ulParser.js` (the spec's `parseResult`). -/
def result (payload : Str) : Except ParseError CommandResult :=
  let fields := splitOnChar '|' payload
  if fields.length < 1 ∨ '@' ∉ fields.headD [] then
    .error ⟨("Parsing command:").toList ++ payload⟩
  else
    let deviceData := splitOnChar '@' (fields.headD [])
    .ok { deviceId := deviceData.headD []
          command := deviceData[1]?
          result := fields[1]? }

/-! ### Observation functions used to state the claims -/

/-- Consecutive pairs of a token list: the key/value pairing that
`chunk`/`addAttributePair` performs on an even-length list. -/
def pairsOf : List Str → List (Str × Str)
  | a :: b :: rest => (a, b) :: pairsOf rest
  | _ => []

/-- Folding key/value pairs into an object with JS assignment semantics. -/
def foldPairs (col : Group) (ps : List (Str × Str)) : Group :=
  ps.foldl (fun c p => setAttr c p.1 p.2) col

/-- Well-formedness of one measure group, as `parseGroup` checks it: the
`|`-split token list is non-empty, of even length and has no empty token. -/
def groupWF (g : Str) : Prop :=
  (splitOnChar '|' g).length ≠ 0 ∧ (splitOnChar '|' g).length % 2 = 0 ∧
    ∀ t ∈ splitOnChar '|' g, t ≠ []

instance (g : Str) : Decidable (groupWF g) := by
  unfold groupWF; infer_instance

/-- The group value produced on the success path of `parseGroup`. -/
def groupVal (g : Str) : Group :=
  foldPairs [] (pairsOf (splitOnChar '|' g))

/-- First value stored under a key in an association list (JS property
lookup on the object built by `setAttr`). -/
def lookupA : Group → Str → Option Str
  | [], _ => none
  | (k', v) :: rest, k => if k' = k then some v else lookupA rest k

/-- Value of the last occurrence of a key in a list of key/value pairs. -/
def lastVal : List (Str × Str) → Str → Option Str
  | [], _ => none
  | (k', v) :: ps, k =>
    match lastVal ps k with
    | some w => some w
    | none => if k' = k then some v else none

/-- Keys of an object, in insertion order. -/
def keysOf (g : Group) : List Str := g.map Prod.fst

/-- Alternating key/value token list of a group, the inverse of `pairsOf`. -/
def groupTokens : Group → List Str
  | [] => []
  | p :: g => p.1 :: p.2 :: groupTokens g

/-- Modelled from the spec: the repository has no measure encoder
(`encodeMeasures` exists only in the spec's words), so it is modelled from
the spec: "join key/value pairs with `=` then `|`; join groups with `#`". -/
def encodeMeasures (m : List Group) : Str :=
  joinChar '#' (m.map fun g => joinChar '|' (g.map fun q => q.1 ++ '=' :: q.2))

/-- One group encoded in the measure grammar the parser actually accepts:
the alternating key/value token list joined with `|`. -/
def encGroup (g : Group) : Str := joinChar '|' (groupTokens g)

/-- Modelled from the spec, amended: the parser's measure grammar separates
a key from its value with `|` (alternating tokens), not `=`, so the amended
encoder joins each group's alternating token list with `|` and the groups
with `#`. -/
def encodeMeasuresUL (m : List Group) : Str :=
  joinChar '#' (m.map encGroup)

/-- The shape every group produced by `parse` has: non-empty, with
pairwise-distinct keys, and every key and value a non-empty token free of
the two separators. -/
def goodGroup (grp : Group) : Prop :=
  grp ≠ [] ∧ (keysOf grp).Nodup ∧
    ∀ q ∈ grp, q.1 ≠ [] ∧ q.2 ≠ [] ∧ '|' ∉ q.1 ∧ '|' ∉ q.2 ∧ '#' ∉ q.1 ∧ '#' ∉ q.2

end UL

/-!
The binding registry and dispatcher of `lib/iotagent-ul.js`.  A transport
binding is opaque: for the purposes of one `broadcast` event it either
implements the handler or not, and an implemented handler (already bound to
the broadcast arguments) either calls back successfully or with an error;
its `start` likewise.  Asynchronous invocation outcomes are therefore
modelled as `Except` values, and to state which bindings are actually
invoked, the combinators additionally return the names of the invoked
bindings in invocation order.
-/

namespace Agent

/-- A registered transport binding, restricted to what one dispatch
observes: its `start` outcome and, for the event being broadcast, the
outcome of its handler when it implements one (`none` = handler absent). -/
structure Binding (ε : Type) where
  name : String
  startResult : Except ε Unit
  handler : Option (Except ε Unit)

/-- The handler tasks collected by `applyFunctionFromBinding`, in
registration order. -/
def handlerTasks {ε : Type} (bindings : List (Binding ε)) :
    List (String × Except ε Unit) :=
  bindings.filterMap fun b => b.handler.map fun h => (b.name, h)

/-- The `addHandler` accumulator from `applyFunctionFromBinding`: pushes
the bound handler when the binding implements the function. -/
def addHandler {ε : Type} (current : List (String × Except ε Unit))
    (binding : Binding ε) : List (String × Except ε Unit) :=
  match binding.handler with
  | some h => current ++ [(binding.name, h)]
  | none => current

/-- `async.series`: runs the tasks in order, each awaited before the next;
the first error stops the run and becomes the aggregate outcome, otherwise
the collected results are returned.  The first component lists the tasks
actually run, in order. -/
def seriesRun {ε : Type} : List (String × Except ε Unit) →
    List String × Except ε (List Unit)
  | [] => ([], .ok [])
  | (n, Except.error e) :: _ => ([n], .error e)
  | (n, Except.ok u) :: ts =>
    let r := seriesRun ts
    (n :: r.1, Except.map (fun us => u :: us) r.2)

/-- `applyFunctionFromBinding` from `iotagent-ul.js` (the spec's
`broadcast`): collect the bindings implementing the handler, in
registration order, and run them with `async.series`. -/
def applyFunctionFromBinding {ε : Type} (bindings : List (Binding ε)) :
    List String × Except ε (List Unit) :=
  seriesRun (bindings.foldl addHandler [])

/-- Aggregation of `async.map`: the first error in order, otherwise the
collected results. -/
def collectResults {ε : Type} : List (String × Except ε Unit) →
    Except ε (List Unit)
  | [] => .ok []
  | (_, Except.error e) :: _ => .error e
  | (_, Except.ok u) :: ts => Except.map (fun us => u :: us) (collectResults ts)

/-- `async.map`: every task is dispatched (the iterator is applied to every
element before any completion is awaited), so the invocation list is all of
them; the aggregate is the first error, otherwise all results. -/
def asyncMapRun {ε : Type} (tasks : List (String × Except ε Unit)) :
    List String × Except ε (List Unit) :=
  (tasks.map Prod.fst, collectResults tasks)

/-- `startTransportBindings` from `iotagent-ul.js` (the spec's `startAll`):
starts every registered binding with `async.map`. -/
def startTransportBindings {ε : Type} (bindings : List (Binding ε)) :
    List String × Except ε (List Unit) :=
  asyncMapRun (bindings.map fun b => (b.name, b.startResult))

/-- The three constituent steps of `stop`, by their outcomes:
`stopTransportBindings`, `iotAgentLib.resetMiddlewares`,
`iotAgentLib.deactivate`. -/
structure StopSteps (ε : Type) where
  stopAllResult : Except ε Unit
  resetMiddlewaresResult : Except ε Unit
  deactivateResult : Except ε Unit

/-- `stop` from `iotagent-ul.js`: `async.series` over the three steps,
whose final callback ignores any error and reports success. -/
def stop {ε : Type} (env : StopSteps ε) : List String × Except ε Unit :=
  let r := seriesRun [("stopTransportBindings", env.stopAllResult),
                      ("resetMiddlewares", env.resetMiddlewaresResult),
                      ("deactivate", env.deactivateResult)]
  (r.1, .ok ())

end Agent

namespace UL

/-! ### Lemmas about `splitOnChar` and `joinChar` -/

theorem splitOnChar_ne_nil (sep : Char) (l : Str) : splitOnChar sep l ≠ [] := by
  simp [splitOnChar]

theorem splitAux_noSep (sep : Char) :
    ∀ l : Str, sep ∉ (splitAux sep l).1 ∧ ∀ x ∈ (splitAux sep l).2, sep ∉ x
  | [] => by simp [splitAux]
  | c :: rest => by
    have ih := splitAux_noSep sep rest
    by_cases h : c = sep
    · simp only [splitAux, h, if_pos rfl]
      exact ⟨by simp, by
        intro x hx
        rcases List.mem_cons.mp hx with rfl | hx
        · exact ih.1
        · exact ih.2 x hx⟩
    · simp only [splitAux, if_neg h]
      refine ⟨?_, ih.2⟩
      intro hmem
      rcases List.mem_cons.mp hmem with heq | hmem
      · exact h heq.symm
      · exact ih.1 hmem

theorem splitOnChar_noSep (sep : Char) (l : Str) :
    ∀ x ∈ splitOnChar sep l, sep ∉ x := by
  intro x hx
  rcases List.mem_cons.mp hx with rfl | hx
  · exact (splitAux_noSep sep l).1
  · exact (splitAux_noSep sep l).2 x hx

theorem splitAux_subset (sep : Char) :
    ∀ l : Str, (∀ c ∈ (splitAux sep l).1, c ∈ l) ∧
      ∀ x ∈ (splitAux sep l).2, ∀ c ∈ x, c ∈ l
  | [] => by simp [splitAux]
  | c :: rest => by
    have ih := splitAux_subset sep rest
    by_cases h : c = sep
    · simp only [splitAux, h, if_pos rfl]
      refine ⟨by simp, ?_⟩
      intro x hx d hd
      rcases List.mem_cons.mp hx with rfl | hx
      · exact List.mem_cons_of_mem _ (ih.1 d hd)
      · exact List.mem_cons_of_mem _ (ih.2 x hx d hd)
    · simp only [splitAux, if_neg h]
      refine ⟨?_, ?_⟩
      · intro d hd
        rcases List.mem_cons.mp hd with rfl | hd
        · exact List.mem_cons_self _ _
        · exact List.mem_cons_of_mem _ (ih.1 d hd)
      · intro x hx d hd
        exact List.mem_cons_of_mem _ (ih.2 x hx d hd)

theorem splitOnChar_subset (sep : Char) (l : Str) :
    ∀ x ∈ splitOnChar sep l, ∀ c ∈ x, c ∈ l := by
  intro x hx
  rcases List.mem_cons.mp hx with rfl | hx
  · exact (splitAux_subset sep l).1
  · exact (splitAux_subset sep l).2 x hx

theorem splitAux_of_noSep (sep : Char) :
    ∀ l : Str, sep ∉ l → splitAux sep l = (l, [])
  | [], _ => rfl
  | c :: rest, h => by
    have hc : ¬ c = sep := fun hc => h (hc ▸ List.mem_cons_self c rest)
    have ih := splitAux_of_noSep sep rest (fun hm => h (List.mem_cons_of_mem _ hm))
    simp [splitAux, hc, ih]

theorem splitOnChar_of_noSep (sep : Char) (l : Str) (h : sep ∉ l) :
    splitOnChar sep l = [l] := by
  simp [splitOnChar, splitAux_of_noSep sep l h]

theorem splitAux_append_noSep (sep : Char) :
    ∀ (a l : Str), sep ∉ a →
      splitAux sep (a ++ l) = (a ++ (splitAux sep l).1, (splitAux sep l).2)
  | [], l, _ => by simp
  | c :: a, l, h => by
    have hc : ¬ c = sep := fun hc => h (hc ▸ List.mem_cons_self c a)
    have ih := splitAux_append_noSep sep a l (fun hm => h (List.mem_cons_of_mem _ hm))
    simp [splitAux, hc, ih]

theorem splitOnChar_append_sep (sep : Char) (a b : Str) (h : sep ∉ a) :
    splitOnChar sep (a ++ sep :: b) = a :: splitOnChar sep b := by
  have h1 := splitAux_append_noSep sep a (sep :: b) h
  have h2 : splitAux sep (sep :: b) = ([], (splitAux sep b).1 :: (splitAux sep b).2) := by
    simp [splitAux]
  simp [splitOnChar, h1, h2]

theorem mem_joinChar (sep : Char) :
    ∀ (parts : List Str) (c : Char), c ∈ joinChar sep parts →
      c = sep ∨ ∃ x ∈ parts, c ∈ x
  | [], c, h => by simp [joinChar] at h
  | [p], c, h => by
    right; exact ⟨p, List.mem_cons_self _ _, h⟩
  | p :: q :: ps, c, h => by
    rw [show joinChar sep (p :: q :: ps) = p ++ sep :: joinChar sep (q :: ps) from rfl]
      at h
    rcases List.mem_append.mp h with hp | ht
    · exact Or.inr ⟨p, List.mem_cons_self _ _, hp⟩
    · rcases List.mem_cons.mp ht with rfl | ht
      · exact Or.inl rfl
      · rcases mem_joinChar sep (q :: ps) c ht with rfl | ⟨x, hx, hcx⟩
        · exact Or.inl rfl
        · exact Or.inr ⟨x, List.mem_cons_of_mem _ hx, hcx⟩

theorem splitOnChar_joinChar (sep : Char) :
    ∀ parts : List Str, parts ≠ [] → (∀ x ∈ parts, sep ∉ x) →
      splitOnChar sep (joinChar sep parts) = parts
  | [], h, _ => absurd rfl h
  | [p], _, hs => by
    rw [show joinChar sep [p] = p from rfl]
    exact splitOnChar_of_noSep sep p (hs p (List.mem_cons_self _ _))
  | p :: q :: ps, _, hs => by
    rw [show joinChar sep (p :: q :: ps) = p ++ sep :: joinChar sep (q :: ps) from rfl]
    rw [splitOnChar_append_sep sep p _ (hs p (List.mem_cons_self _ _))]
    rw [splitOnChar_joinChar sep (q :: ps) (by simp)
      (fun x hx => hs x (List.mem_cons_of_mem _ hx))]

/-! ### Characterization of `parseGroup`, `mapGroups` and `parse` -/

theorem chunk_foldlM_even :
    ∀ (l : List Str) (col : Group), l.length % 2 = 0 →
      (chunk l).foldlM addAttributePair col = .ok (foldPairs col (pairsOf l))
  | [], col, _ => rfl
  | [a], col, h => by simp at h
  | a :: b :: rest, col, h => by
    have hr : rest.length % 2 = 0 := by
      have hlen : (a :: b :: rest).length = rest.length + 2 := by simp
      omega
    rw [show chunk (a :: b :: rest) = [a, b] :: chunk rest from rfl]
    rw [show pairsOf (a :: b :: rest) = (a, b) :: pairsOf rest from rfl]
    rw [show ([a, b] :: chunk rest).foldlM addAttributePair col
          = (addAttributePair col [a, b]) >>= fun c => (chunk rest).foldlM addAttributePair c
        from rfl]
    rw [show addAttributePair col [a, b] = .ok (setAttr col a b) from rfl]
    rw [show foldPairs col ((a, b) :: pairsOf rest)
          = foldPairs (setAttr col a b) (pairsOf rest) from rfl]
    simpa using chunk_foldlM_even rest (setAttr col a b) hr

theorem filter_isEmpty_eq_nil (l : List Str) (h : ∀ t ∈ l, t ≠ []) :
    l.filter List.isEmpty = [] := by
  rw [List.filter_eq_nil_iff]
  intro t ht
  have := h t ht
  cases t with
  | nil => exact absurd rfl this
  | cons c cs => simp [List.isEmpty]

theorem parseGroup_eq_ok (g : Str) (h : groupWF g) :
    parseGroup g = .ok (groupVal g) := by
  obtain ⟨h0, h2, hne⟩ := h
  unfold parseGroup
  rw [if_neg]
  · exact chunk_foldlM_even (splitOnChar '|' g) [] h2
  · push_neg
    refine ⟨h0, h2, ?_⟩
    rw [filter_isEmpty_eq_nil _ hne]
    simp

theorem parseGroup_eq_error (g : Str) (h : ¬ groupWF g) :
    parseGroup g = .error ⟨("Parsing group:").toList ++ g⟩ := by
  unfold parseGroup
  rw [if_pos]
  unfold groupWF at h
  push_neg at h
  by_cases h0 : (splitOnChar '|' g).length = 0
  · exact Or.inl h0
  by_cases h2 : (splitOnChar '|' g).length % 2 = 0
  · obtain ⟨t, ht, hte⟩ := h h0 h2
    refine Or.inr (Or.inr ?_)
    have : t ∈ (splitOnChar '|' g).filter List.isEmpty := by
      rw [List.mem_filter]
      exact ⟨ht, by subst hte; rfl⟩
    have := List.length_pos.mpr (List.ne_nil_of_mem this)
    omega
  · exact Or.inr (Or.inl h2)

theorem mapGroups_ok (l : List Str) (h : ∀ g ∈ l, groupWF g) :
    mapGroups l = .ok (l.map groupVal) := by
  induction l with
  | nil => rfl
  | cons g gs ih =>
    rw [show mapGroups (g :: gs)
          = (parseGroup g >>= fun grp => mapGroups gs >>= fun rest => pure (grp :: rest))
        from rfl]
    rw [parseGroup_eq_ok g (h g (List.mem_cons_self _ _)),
        ih (fun x hx => h x (List.mem_cons_of_mem _ hx))]
    rfl

theorem mapGroups_error (l : List Str) (h : ∃ g ∈ l, ¬ groupWF g) :
    ∃ e, mapGroups l = .error e := by
  induction l with
  | nil => simp at h
  | cons g gs ih =>
    rw [show mapGroups (g :: gs)
          = (parseGroup g >>= fun grp => mapGroups gs >>= fun rest => pure (grp :: rest))
        from rfl]
    by_cases hg : groupWF g
    · have : ∃ x ∈ gs, ¬ groupWF x := by
        obtain ⟨x, hx, hxw⟩ := h
        rcases List.mem_cons.mp hx with rfl | hx
        · exact absurd hg hxw
        · exact ⟨x, hx, hxw⟩
      obtain ⟨e, he⟩ := ih this
      rw [parseGroup_eq_ok g hg, he]
      exact ⟨e, rfl⟩
    · rw [parseGroup_eq_error g hg]
      exact ⟨_, rfl⟩

/-! ### Lemmas about `setAttr`, lookup and folded objects -/

theorem any_key_iff (col : Group) (k : Str) :
    (col.any fun p => p.1 == k) = true ↔ k ∈ keysOf col := by
  simp only [List.any_eq_true, keysOf, List.mem_map, beq_iff_eq]

theorem lookupA_append (a b : Group) (k : Str) :
    lookupA (a ++ b) k =
      match lookupA a k with
      | some w => some w
      | none => lookupA b k := by
  induction a with
  | nil => simp [lookupA]
  | cons p a ih =>
    by_cases h : p.1 = k
    · simp [lookupA, h]
    · simpa [lookupA, h] using ih

theorem lookupA_eq_none (col : Group) (k : Str) (h : k ∉ keysOf col) :
    lookupA col k = none := by
  induction col with
  | nil => rfl
  | cons p col ih =>
    have hk : ¬ p.1 = k := by
      intro he; exact h (he ▸ List.mem_cons_self _ _)
    have hmem : k ∉ keysOf col := fun hm => h (List.mem_cons_of_mem _ hm)
    simp [lookupA, hk, ih hmem]

theorem lookupA_mapReplace (col : Group) (k' v k : Str) :
    lookupA (col.map fun p => if p.1 = k' then (k', v) else p) k =
      if k' = k then (if k ∈ keysOf col then some v else none)
      else lookupA col k := by
  induction col with
  | nil => by_cases h : k' = k <;> simp [lookupA, keysOf, h]
  | cons p col ih =>
    rw [List.map_cons]
    by_cases h0 : p.1 = k'
    · rw [if_pos h0]
      by_cases hk : k' = k
      · have hmem : k ∈ keysOf (p :: col) := by
          unfold keysOf
          rw [List.map_cons, h0, hk]
          exact List.mem_cons_self _ _
        rw [if_pos hk, if_pos hmem,
          show lookupA ((k', v) :: (col.map fun q => if q.1 = k' then (k', v) else q)) k
            = some v from by simp [lookupA, hk]]
      · have hpk : ¬ p.1 = k := fun he => hk (h0.symm.trans he)
        rw [if_neg hk,
          show lookupA ((k', v) :: (col.map fun q => if q.1 = k' then (k', v) else q)) k
            = lookupA (col.map fun q => if q.1 = k' then (k', v) else q) k from by
              simp [lookupA, hk],
          ih, if_neg hk]
        simp [lookupA, hpk]
    · rw [if_neg h0]
      by_cases hpk : p.1 = k
      · have hk : ¬ k' = k := fun he => h0 (hpk.trans he.symm)
        rw [if_neg hk,
          show lookupA (p :: (col.map fun q => if q.1 = k' then (k', v) else q)) k
            = some p.2 from by simp [lookupA, hpk]]
        simp [lookupA, hpk]
      · rw [show lookupA (p :: (col.map fun q => if q.1 = k' then (k', v) else q)) k
              = lookupA (col.map fun q => if q.1 = k' then (k', v) else q) k from by
            simp [lookupA, hpk],
          ih]
        by_cases hk : k' = k
        · have hiff : (k ∈ keysOf (p :: col)) ↔ (k ∈ keysOf col) := by
            unfold keysOf
            rw [List.map_cons, List.mem_cons]
            constructor
            · rintro (he | hm)
              · exact absurd he.symm hpk
              · exact hm
            · exact fun hm => Or.inr hm
          rw [if_pos hk, if_pos hk]
          by_cases hmem : k ∈ keysOf col
          · rw [if_pos hmem, if_pos (hiff.mpr hmem)]
          · rw [if_neg hmem, if_neg (fun hc => hmem (hiff.mp hc))]
        · rw [if_neg hk, if_neg hk]
          simp [lookupA, hpk]

theorem lookupA_setAttr (col : Group) (k' v k : Str) :
    lookupA (setAttr col k' v) k = if k' = k then some v else lookupA col k := by
  unfold setAttr
  by_cases hany : (col.any fun p => p.1 == k') = true
  · rw [if_pos hany, lookupA_mapReplace]
    by_cases hk : k' = k
    · subst hk
      rw [if_pos rfl, if_pos rfl, if_pos (any_key_iff col k' |>.mp hany)]
    · rw [if_neg hk, if_neg hk]
  · rw [if_neg hany, lookupA_append]
    by_cases hk : k' = k
    · subst hk
      have : k' ∉ keysOf col := fun hm => hany ((any_key_iff col k').mpr hm)
      rw [lookupA_eq_none col k' this]
      simp [lookupA]
    · by_cases hc : lookupA col k = none
      · rw [hc]; simp [lookupA, hk, hc]
      · obtain ⟨w, hw⟩ := Option.ne_none_iff_exists'.mp hc
        rw [hw]
        simp [hk, hw]

theorem lookupA_foldPairs (ps : List (Str × Str)) :
    ∀ (col : Group) (k : Str),
      lookupA (foldPairs col ps) k =
        match lastVal ps k with
        | some w => some w
        | none => lookupA col k := by
  induction ps with
  | nil => intro col k; simp [foldPairs, lastVal]
  | cons p ps ih =>
    intro col k
    rw [show foldPairs col (p :: ps) = foldPairs (setAttr col p.1 p.2) ps from rfl]
    rw [ih (setAttr col p.1 p.2) k, lookupA_setAttr]
    rcases p with ⟨k', v⟩
    rw [show lastVal ((k', v) :: ps) k =
          (match lastVal ps k with
           | some w => some w
           | none => if k' = k then some v else none) from rfl]
    cases lastVal ps k with
    | some w => rfl
    | none =>
      by_cases hk : k' = k <;> simp [hk]

theorem mem_setAttr (col : Group) (k v : Str) (e : Str × Str)
    (h : e ∈ setAttr col k v) : e ∈ col ∨ e = (k, v) := by
  unfold setAttr at h
  by_cases hany : (col.any fun p => p.1 == k) = true
  · rw [if_pos hany] at h
    obtain ⟨p, hp, he⟩ := List.mem_map.mp h
    by_cases hpk : p.1 = k
    · rw [if_pos hpk] at he; exact Or.inr he.symm
    · rw [if_neg hpk] at he; exact Or.inl (he ▸ hp)
  · rw [if_neg hany] at h
    rcases List.mem_append.mp h with hc | hc
    · exact Or.inl hc
    · exact Or.inr (List.mem_singleton.mp hc)

theorem mem_foldPairs (ps : List (Str × Str)) :
    ∀ (col : Group) (e : Str × Str), e ∈ foldPairs col ps → e ∈ col ∨ e ∈ ps := by
  induction ps with
  | nil => intro col e h; exact Or.inl h
  | cons p ps ih =>
    intro col e h
    rw [show foldPairs col (p :: ps) = foldPairs (setAttr col p.1 p.2) ps from rfl] at h
    rcases ih (setAttr col p.1 p.2) e h with hc | hc
    · rcases mem_setAttr col p.1 p.2 e hc with hcc | hcc
      · exact Or.inl hcc
      · exact Or.inr (hcc ▸ List.mem_cons_self _ _)
    · exact Or.inr (List.mem_cons_of_mem _ hc)

theorem keysOf_setAttr_nodup (col : Group) (k v : Str)
    (h : (keysOf col).Nodup) : (keysOf (setAttr col k v)).Nodup := by
  unfold setAttr
  by_cases hany : (col.any fun p => p.1 == k) = true
  · rw [if_pos hany]
    have : keysOf (col.map fun p => if p.1 = k then (k, v) else p) = keysOf col := by
      unfold keysOf
      rw [List.map_map]
      refine List.map_congr_left ?_
      intro p _
      by_cases hpk : p.1 = k
      · simp [hpk]
      · simp [hpk]
    rw [this]; exact h
  · rw [if_neg hany]
    have hk : k ∉ keysOf col := fun hm => hany ((any_key_iff col k).mpr hm)
    unfold keysOf
    rw [List.map_append]
    simp only [List.map_cons, List.map_nil]
    rw [List.nodup_append]
    exact ⟨h, List.nodup_singleton k, by
      intro a ha hb
      rw [List.mem_singleton] at hb
      exact hk (hb ▸ ha)⟩

theorem keysOf_foldPairs_nodup (ps : List (Str × Str)) :
    ∀ col : Group, (keysOf col).Nodup → (keysOf (foldPairs col ps)).Nodup := by
  induction ps with
  | nil => intro col h; exact h
  | cons p ps ih =>
    intro col h
    rw [show foldPairs col (p :: ps) = foldPairs (setAttr col p.1 p.2) ps from rfl]
    exact ih _ (keysOf_setAttr_nodup col p.1 p.2 h)

theorem setAttr_of_not_mem (col : Group) (k v : Str) (h : k ∉ keysOf col) :
    setAttr col k v = col ++ [(k, v)] := by
  unfold setAttr
  rw [if_neg (fun hany => h ((any_key_iff col k).mp hany))]

theorem foldPairs_of_nodup (g : List (Str × Str)) :
    ∀ col : Group, (keysOf g).Nodup → (∀ k ∈ keysOf g, k ∉ keysOf col) →
      foldPairs col g = col ++ g := by
  induction g with
  | nil => intro col _ _; simp [foldPairs]
  | cons p g ih =>
    intro col hnd hdis
    have hk : p.1 ∉ keysOf col :=
      hdis p.1 (by unfold keysOf; rw [List.map_cons]; exact List.mem_cons_self _ _)
    rw [show foldPairs col (p :: g) = foldPairs (setAttr col p.1 p.2) g from rfl]
    rw [setAttr_of_not_mem col p.1 p.2 hk]
    have hnd' : (keysOf g).Nodup := by
      have : keysOf (p :: g) = p.1 :: keysOf g := by unfold keysOf; rw [List.map_cons]
      rw [this] at hnd
      exact hnd.of_cons
    have hdis' : ∀ k ∈ keysOf g, k ∉ keysOf (col ++ [(p.1, p.2)]) := by
      intro k hkg hmem
      have hkey : keysOf (col ++ [(p.1, p.2)]) = keysOf col ++ [p.1] := by
        unfold keysOf; rw [List.map_append]; rfl
      rw [hkey] at hmem
      rcases List.mem_append.mp hmem with hc | hc
      · exact hdis k (by
          unfold keysOf; rw [List.map_cons]; exact List.mem_cons_of_mem _ hkg) hc
      · have hkp : k = p.1 := List.mem_singleton.mp hc
        have : keysOf (p :: g) = p.1 :: keysOf g := by unfold keysOf; rw [List.map_cons]
        rw [this] at hnd
        exact (List.nodup_cons.mp hnd).1 (hkp ▸ hkg)
    rw [ih (col ++ [(p.1, p.2)]) hnd' hdis']
    simp

theorem setAttr_ne_nil (col : Group) (k v : Str) : setAttr col k v ≠ [] := by
  unfold setAttr
  by_cases hany : (col.any fun p => p.1 == k) = true
  · rw [if_pos hany]
    intro h
    have := List.map_eq_nil_iff.mp h
    subst this
    simp at hany
  · rw [if_neg hany]
    simp

theorem foldPairs_ne_nil_of_ne_nil (ps : List (Str × Str)) :
    ∀ col : Group, col ≠ [] → foldPairs col ps ≠ [] := by
  induction ps with
  | nil => intro col h; exact h
  | cons p ps ih =>
    intro col _
    rw [show foldPairs col (p :: ps) = foldPairs (setAttr col p.1 p.2) ps from rfl]
    exact ih _ (setAttr_ne_nil col p.1 p.2)

theorem foldPairs_ne_nil (ps : List (Str × Str)) (col : Group) (h : ps ≠ []) :
    foldPairs col ps ≠ [] := by
  cases ps with
  | nil => exact absurd rfl h
  | cons p ps =>
    rw [show foldPairs col (p :: ps) = foldPairs (setAttr col p.1 p.2) ps from rfl]
    exact foldPairs_ne_nil_of_ne_nil ps _ (setAttr_ne_nil col p.1 p.2)

theorem pairsOf_groupTokens : ∀ g : Group, pairsOf (groupTokens g) = g
  | [] => rfl
  | p :: g => by
    rw [show groupTokens (p :: g) = p.1 :: p.2 :: groupTokens g from rfl]
    rw [show pairsOf (p.1 :: p.2 :: groupTokens g) = (p.1, p.2) :: pairsOf (groupTokens g)
      from rfl]
    rw [pairsOf_groupTokens g]

theorem groupTokens_length : ∀ g : Group, (groupTokens g).length = 2 * g.length
  | [] => rfl
  | p :: g => by
    rw [show groupTokens (p :: g) = p.1 :: p.2 :: groupTokens g from rfl]
    simp [groupTokens_length g]
    ring

theorem groupTokens_ne_nil (g : Group) (h : g ≠ []) : groupTokens g ≠ [] := by
  cases g with
  | nil => exact absurd rfl h
  | cons p g => simp [groupTokens]

theorem mem_groupTokens : ∀ (g : Group) (t : Str), t ∈ groupTokens g →
    ∃ p ∈ g, t = p.1 ∨ t = p.2
  | [], t, h => by simp [groupTokens] at h
  | p :: g, t, h => by
    rw [show groupTokens (p :: g) = p.1 :: p.2 :: groupTokens g from rfl] at h
    rcases List.mem_cons.mp h with rfl | h
    · exact ⟨p, List.mem_cons_self _ _, Or.inl rfl⟩
    · rcases List.mem_cons.mp h with rfl | h
      · exact ⟨p, List.mem_cons_self _ _, Or.inr rfl⟩
      · obtain ⟨q, hq, hor⟩ := mem_groupTokens g t h
        exact ⟨q, List.mem_cons_of_mem _ hq, hor⟩

theorem mem_pairsOf : ∀ (l : List Str) (p : Str × Str), p ∈ pairsOf l →
    p.1 ∈ l ∧ p.2 ∈ l
  | [], p, h => by simp [pairsOf] at h
  | [a], p, h => by simp [pairsOf] at h
  | a :: b :: rest, p, h => by
    rw [show pairsOf (a :: b :: rest) = (a, b) :: pairsOf rest from rfl] at h
    rcases List.mem_cons.mp h with rfl | h
    · exact ⟨List.mem_cons_self _ _, List.mem_cons_of_mem _ (List.mem_cons_self _ _)⟩
    · obtain ⟨h1, h2⟩ := mem_pairsOf rest p h
      exact ⟨List.mem_cons_of_mem _ (List.mem_cons_of_mem _ h1),
        List.mem_cons_of_mem _ (List.mem_cons_of_mem _ h2)⟩

theorem pairsOf_ne_nil (l : List Str) (h : 2 ≤ l.length) : pairsOf l ≠ [] := by
  match l with
  | [] => simp at h
  | [a] => simp at h
  | a :: b :: rest =>
    rw [show pairsOf (a :: b :: rest) = (a, b) :: pairsOf rest from rfl]
    simp

theorem length_eq_two_iff (l : List Str) :
    l.length = 2 ↔ ∃ k v, l = [k, v] := by
  constructor
  · intro h
    match l with
    | [k, v] => exact ⟨k, v, rfl⟩
  · rintro ⟨k, v, rfl⟩; rfl

theorem foldAttr_ok (sep : Char) :
    ∀ (l : List Str) (col : Group),
      (∀ a ∈ l, (splitOnChar sep a).length = 2) →
      ∃ ps : Group, l.foldlM (addAttribute sep) col = .ok ps
  | [], col, _ => ⟨col, rfl⟩
  | a :: l, col, h => by
    obtain ⟨k, v, hkv⟩ :=
      (length_eq_two_iff _).mp (h a (List.mem_cons_self _ _))
    have hstep : addAttribute sep col a = .ok (setAttr col k v) := by
      unfold addAttribute; rw [hkv]
    obtain ⟨ps, hps⟩ :=
      foldAttr_ok sep l (setAttr col k v) (fun x hx => h x (List.mem_cons_of_mem _ hx))
    refine ⟨ps, ?_⟩
    rw [show (a :: l).foldlM (addAttribute sep) col
          = (addAttribute sep col a) >>= fun c => l.foldlM (addAttribute sep) c from rfl]
    rw [hstep]
    simpa using hps

theorem addAttribute_error (sep : Char) (col : Group) (a : Str)
    (h : (splitOnChar sep a).length ≠ 2) :
    addAttribute sep col a = .error ⟨("Extracting attribute:").toList ++ a⟩ := by
  unfold addAttribute
  match hs : splitOnChar sep a with
  | [] => rfl
  | [k] => rfl
  | [k, v] => rw [hs] at h; simp at h
  | k :: v :: w :: rest => rfl

theorem foldAttr_error (sep : Char) :
    ∀ (l : List Str) (col : Group),
      (∃ a ∈ l, (splitOnChar sep a).length ≠ 2) →
      ∃ e, l.foldlM (addAttribute sep) col = .error e
  | [], col, h => by simp at h
  | a :: l, col, h => by
    rw [show (a :: l).foldlM (addAttribute sep) col
          = (addAttribute sep col a) >>= fun c => l.foldlM (addAttribute sep) c from rfl]
    by_cases ha : (splitOnChar sep a).length = 2
    · obtain ⟨k, v, hkv⟩ := (length_eq_two_iff _).mp ha
      have hstep : addAttribute sep col a = .ok (setAttr col k v) := by
        unfold addAttribute; rw [hkv]
      have hex : ∃ x ∈ l, (splitOnChar sep x).length ≠ 2 := by
        obtain ⟨x, hx, hxl⟩ := h
        rcases List.mem_cons.mp hx with rfl | hx
        · exact absurd ha hxl
        · exact ⟨x, hx, hxl⟩
      obtain ⟨e, he⟩ := foldAttr_error sep l (setAttr col k v) hex
      rw [hstep]
      exact ⟨e, by simpa using he⟩
    · rw [addAttribute_error sep col a ha]
      exact ⟨_, rfl⟩

theorem lastVal_ne_none_of_mem (k : Str) :
    ∀ (ps : List (Str × Str)) (q : Str × Str), q ∈ ps → q.1 = k →
      lastVal ps k ≠ none
  | [], q, hq, _ => by simp at hq
  | p :: ps, q, hq, hk => by
    rw [show lastVal (p :: ps) k
          = (match lastVal ps k with
             | some w => some w
             | none => if p.1 = k then some p.2 else none) from by
        rcases p with ⟨k', v⟩; rfl]
    rcases List.mem_cons.mp hq with rfl | hq
    · cases hv : lastVal ps k with
      | some w => simp
      | none => simp [hk]
    · have := lastVal_ne_none_of_mem k ps q hq hk
      cases hv : lastVal ps k with
      | some w => simp
      | none => exact absurd hv this

theorem parseGroup_ok_inv (g : Str) (grp : Group)
    (h : parseGroup g = .ok grp) : groupWF g ∧ grp = groupVal g := by
  by_cases hwf : groupWF g
  · rw [parseGroup_eq_ok g hwf] at h
    exact ⟨hwf, (Except.ok.inj h).symm⟩
  · rw [parseGroup_eq_error g hwf] at h
    exact Except.noConfusion h

theorem mapGroups_ok_inv :
    ∀ (gs : List Str) (m : List Group), mapGroups gs = .ok m →
      List.Forall₂ (fun g grp => parseGroup g = .ok grp) gs m
  | [], m, h => by
    rw [show mapGroups [] = .ok [] from rfl] at h
    rw [← Except.ok.inj h]
    exact List.Forall₂.nil
  | g :: gs, m, h => by
    rw [show mapGroups (g :: gs)
          = (parseGroup g >>= fun grp => mapGroups gs >>= fun rest => pure (grp :: rest))
        from rfl] at h
    cases hg : parseGroup g with
    | error e => rw [hg] at h; exact Except.noConfusion h
    | ok grp =>
      rw [hg] at h
      cases hgs : mapGroups gs with
      | error e =>
        rw [hgs] at h
        exact Except.noConfusion h
      | ok rest =>
        rw [hgs] at h
        have : m = grp :: rest := (Except.ok.inj h).symm
        subst this
        exact List.Forall₂.cons hg (mapGroups_ok_inv gs rest hgs)

theorem exists_left_of_forall₂ {α β : Type} {R : α → β → Prop} :
    ∀ {l₁ : List α} {l₂ : List β}, List.Forall₂ R l₁ l₂ →
      ∀ b ∈ l₂, ∃ a ∈ l₁, R a b := by
  intro l₁ l₂ h
  induction h with
  | nil => intro b hb; simp at hb
  | cons hr _ ih =>
    intro b hb
    rcases List.mem_cons.mp hb with rfl | hb
    · exact ⟨_, List.mem_cons_self _ _, hr⟩
    · obtain ⟨a, ha, har⟩ := ih b hb
      exact ⟨a, List.mem_cons_of_mem _ ha, har⟩

theorem goodGroup_of_parse (p g : Str) (grp : Group)
    (hg : g ∈ splitOnChar '#' p) (hwf : groupWF g) (hval : grp = groupVal g) :
    goodGroup grp := by
  obtain ⟨h0, h2, hne⟩ := hwf
  have htoklen : 2 ≤ (splitOnChar '|' g).length := by omega
  have htok : ∀ t ∈ splitOnChar '|' g, t ≠ [] ∧ '|' ∉ t ∧ '#' ∉ t := by
    intro t ht
    refine ⟨hne t ht, splitOnChar_noSep '|' g t ht, ?_⟩
    intro hc
    exact splitOnChar_noSep '#' p g hg (splitOnChar_subset '|' g t ht '#' hc)
  subst hval
  unfold groupVal
  refine ⟨?_, ?_, ?_⟩
  · exact foldPairs_ne_nil _ [] (pairsOf_ne_nil _ htoklen)
  · exact keysOf_foldPairs_nodup _ [] List.nodup_nil
  · intro q hq
    have hqp : q ∈ pairsOf (splitOnChar '|' g) := by
      rcases mem_foldPairs _ [] q hq with hc | hc
      · simp at hc
      · exact hc
    obtain ⟨h1, h2'⟩ := mem_pairsOf _ q hqp
    obtain ⟨he1, hp1, hh1⟩ := htok q.1 h1
    obtain ⟨he2, hp2, hh2⟩ := htok q.2 h2'
    exact ⟨he1, he2, hp1, hp2, hh1, hh2⟩

theorem parseGroup_encGroup (grp : Group) (h : goodGroup grp) :
    parseGroup (encGroup grp) = .ok grp := by
  obtain ⟨hne, hnd, hq⟩ := h
  have htokfree : ∀ t ∈ groupTokens grp, '|' ∉ t := by
    intro t ht
    obtain ⟨q, hqm, hor⟩ := mem_groupTokens grp t ht
    rcases hor with rfl | rfl
    · exact (hq q hqm).2.2.1
    · exact (hq q hqm).2.2.2.1
  have hsplit : splitOnChar '|' (encGroup grp) = groupTokens grp :=
    splitOnChar_joinChar '|' (groupTokens grp) (groupTokens_ne_nil grp hne) htokfree
  have hlen : (groupTokens grp).length = 2 * grp.length := groupTokens_length grp
  have hwf : groupWF (encGroup grp) := by
    refine ⟨?_, ?_, ?_⟩
    · rw [hsplit, hlen]
      have : grp.length ≠ 0 := fun hz => hne (List.length_eq_zero.mp hz)
      omega
    · rw [hsplit, hlen]; omega
    · rw [hsplit]
      intro t ht
      obtain ⟨q, hqm, hor⟩ := mem_groupTokens grp t ht
      rcases hor with rfl | rfl
      · exact (hq q hqm).1
      · exact (hq q hqm).2.1
  rw [parseGroup_eq_ok _ hwf]
  unfold groupVal
  rw [hsplit, pairsOf_groupTokens]
  rw [foldPairs_of_nodup grp [] hnd (by intro k _ hk; simp [keysOf] at hk)]
  rfl

theorem mapGroups_map_encGroup :
    ∀ m : List Group, (∀ grp ∈ m, parseGroup (encGroup grp) = .ok grp) →
      mapGroups (m.map encGroup) = .ok m
  | [], _ => rfl
  | grp :: m, h => by
    rw [List.map_cons]
    rw [show mapGroups (encGroup grp :: m.map encGroup)
          = (parseGroup (encGroup grp) >>= fun g =>
              mapGroups (m.map encGroup) >>= fun rest => pure (g :: rest)) from rfl]
    rw [h grp (List.mem_cons_self _ _)]
    rw [mapGroups_map_encGroup m (fun x hx => h x (List.mem_cons_of_mem _ hx))]
    rfl

theorem command_eq (p : Str) :
    command p =
      if (splitOnChar '|' p).length < 1 ∨ '@' ∉ (splitOnChar '|' p).headD [] then
        .error ⟨("Parsing command:").toList ++ p⟩
      else
        ((splitOnChar '|' p).drop 1).foldlM (addAttribute '=') [] >>=
          fun commandData =>
            pure { deviceId := (splitOnChar '@' ((splitOnChar '|' p).headD [])).headD []
                   command := (splitOnChar '@' ((splitOnChar '|' p).headD []))[1]?
                   params := commandData } := rfl

theorem result_eq (p : Str) :
    result p =
      if (splitOnChar '|' p).length < 1 ∨ '@' ∉ (splitOnChar '|' p).headD [] then
        .error ⟨("Parsing command:").toList ++ p⟩
      else
        .ok { deviceId := (splitOnChar '@' ((splitOnChar '|' p).headD [])).headD []
              command := (splitOnChar '@' ((splitOnChar '|' p).headD []))[1]?
              result := (splitOnChar '|' p)[1]? } := rfl

theorem fields_length_ge_one (p : Str) : ¬ ((splitOnChar '|' p).length < 1) := by
  have := List.length_pos.mpr (splitOnChar_ne_nil '|' p)
  omega

/-! ### Claim theorems for the payload codec -/

/-- C3 (amended): for every payload string, `parse` splits it on `#` into one
or more groups and splits each group on `|`; it returns the ordered sequence
of groups, pairing consecutive tokens into key/value, exactly when every
group yields a non-empty, even-length token sequence with no empty token,
and otherwise fails with a `ParseError`; in particular `parse ""` fails with
a `ParseError`, and `parse "a=1|b=2#c=3"` also fails with a `ParseError`
(its second group `"c=3"` splits into a single `|`-token), whereas
`parse "a|1|b|2#c|3"` yields the two groups `{a:"1", b:"2"}` and `{c:"3"}`
in that order. -/
theorem c3_parse_measures (p : Str) :
    ((∀ g ∈ splitOnChar '#' p, groupWF g) →
        parse p = .ok ((splitOnChar '#' p).map groupVal))
  ∧ ((∃ g ∈ splitOnChar '#' p, ¬ groupWF g) → ∃ e, parse p = .error e)
  ∧ parse ("").toList = .error ⟨("Parsing group:").toList⟩
  ∧ parse ("a=1|b=2#c=3").toList = .error ⟨("Parsing group:c=3").toList⟩
  ∧ parse ("a|1|b|2#c|3").toList =
      .ok [[("a".toList, "1".toList), ("b".toList, "2".toList)],
           [("c".toList, "3".toList)]] :=
  ⟨fun h => mapGroups_ok _ h, fun h => mapGroups_error _ h, rfl, rfl, rfl⟩

/-- C3 witness: the two general branches of `c3_parse_measures` applied at
concrete payloads. -/
theorem c3_parse_measures_witness :
    parse ("a|1#b|2").toList =
      .ok ((splitOnChar '#' ("a|1#b|2").toList).map groupVal)
  ∧ ∃ e, parse ("a|b|c").toList = .error e :=
  ⟨(c3_parse_measures (("a|1#b|2").toList)).1 (by decide),
   (c3_parse_measures (("a|b|c").toList)).2.1 (by decide)⟩

/-- C3 counterexample: the claim states that `parse "a=1|b=2#c=3"` yields the
two groups `{a:"1", b:"2"}` and `{c:"3"}`; on the code it raises a
`ParseError`, because the parser pairs consecutive `|`-tokens (the group
`"c=3"` yields the single token `"c=3"`, an odd count). -/
theorem c3_counterexample :
    parse ("a=1|b=2#c=3").toList = .error ⟨("Parsing group:c=3").toList⟩
  ∧ parse ("a=1|b=2#c=3").toList ≠
      .ok [[("a".toList, "1".toList), ("b".toList, "2".toList)],
           [("c".toList, "3".toList)]] := by
  refine ⟨rfl, ?_⟩
  intro h
  rw [show parse ("a=1|b=2#c=3").toList
        = .error ⟨("Parsing group:c=3").toList⟩ from rfl] at h
  exact Except.noConfusion h

/-- C4: `command` fails with a `ParseError` when the first `|`-field has no
`@`, or when some trailing field does not split into exactly two parts on
`=`; otherwise it succeeds with `deviceId` and `command` taken from the
`@`-split of the first field and `params` collected from the trailing
fields; `command "dev1@ping|times=3"` yields
`{deviceId:"dev1", command:"ping", params:{times:"3"}}`. -/
theorem c4_parse_command (p : Str) :
    ('@' ∉ (splitOnChar '|' p).headD [] →
        command p = .error ⟨("Parsing command:").toList ++ p⟩)
  ∧ ('@' ∈ (splitOnChar '|' p).headD [] →
      (∃ a ∈ (splitOnChar '|' p).drop 1, (splitOnChar '=' a).length ≠ 2) →
      ∃ e, command p = .error e)
  ∧ ('@' ∈ (splitOnChar '|' p).headD [] →
      (∀ a ∈ (splitOnChar '|' p).drop 1, (splitOnChar '=' a).length = 2) →
      ∃ ps, ((splitOnChar '|' p).drop 1).foldlM (addAttribute '=') [] = .ok ps ∧
        command p =
          .ok { deviceId := (splitOnChar '@' ((splitOnChar '|' p).headD [])).headD []
                command := (splitOnChar '@' ((splitOnChar '|' p).headD []))[1]?
                params := ps })
  ∧ command ("dev1@ping|times=3").toList =
      .ok { deviceId := ("dev1").toList
            command := some (("ping").toList)
            params := [(("times").toList, ("3").toList)] } := by
  refine ⟨?_, ?_, ?_, rfl⟩
  · intro h
    rw [command_eq, if_pos (Or.inr h)]
  · intro hat hbad
    obtain ⟨e, he⟩ := foldAttr_error '=' ((splitOnChar '|' p).drop 1) [] hbad
    refine ⟨e, ?_⟩
    rw [command_eq, if_neg (not_or.mpr ⟨fields_length_ge_one p, not_not_intro hat⟩), he]
    rfl
  · intro hat hgoodf
    obtain ⟨ps, hps⟩ := foldAttr_ok '=' ((splitOnChar '|' p).drop 1) [] hgoodf
    refine ⟨ps, hps, ?_⟩
    rw [command_eq, if_neg (not_or.mpr ⟨fields_length_ge_one p, not_not_intro hat⟩), hps]
    rfl

/-- C4 witness: `c4_parse_command` applied at concrete payloads: a payload
without `@` is rejected and a well-formed command is accepted. -/
theorem c4_parse_command_witness :
    command ("dev1").toList = .error ⟨("Parsing command:dev1").toList⟩
  ∧ ∃ e, command ("dev1@ping|broken").toList = .error e :=
  ⟨(c4_parse_command (("dev1").toList)).1 (by decide),
   (c4_parse_command (("dev1@ping|broken").toList)).2.1 (by decide) (by decide)⟩

/-- C5: for every payload whose first `|`-field contains an `@`, `result`
succeeds and takes only the first `|`-segment after the header (`fields[1]`)
as `result`, discarding later segments; it fails with a `ParseError` exactly
when the first field contains no `@`;
`result "dev1@ping|OK|ignored"` yields
`{deviceId:"dev1", command:"ping", result:"OK"}`. -/
theorem c5_parse_result (p : Str) :
    ('@' ∈ (splitOnChar '|' p).headD [] →
        result p =
          .ok { deviceId := (splitOnChar '@' ((splitOnChar '|' p).headD [])).headD []
                command := (splitOnChar '@' ((splitOnChar '|' p).headD []))[1]?
                result := (splitOnChar '|' p)[1]? })
  ∧ ('@' ∉ (splitOnChar '|' p).headD [] →
      result p = .error ⟨("Parsing command:").toList ++ p⟩)
  ∧ result ("dev1@ping|OK|ignored").toList =
      .ok { deviceId := ("dev1").toList
            command := some (("ping").toList)
            result := some (("OK").toList) } := by
  refine ⟨?_, ?_, rfl⟩
  · intro hat
    rw [result_eq, if_neg (not_or.mpr ⟨fields_length_ge_one p, not_not_intro hat⟩)]
  · intro h
    rw [result_eq, if_pos (Or.inr h)]

/-- C5 witness: `c5_parse_result` applied at the spec's example payload. -/
theorem c5_parse_result_witness :
    result ("dev1@ping|OK|ignored").toList =
      .ok { deviceId :=
              (splitOnChar '@' ((splitOnChar '|' ("dev1@ping|OK|ignored").toList).headD [])).headD []
            command :=
              (splitOnChar '@' ((splitOnChar '|' ("dev1@ping|OK|ignored").toList).headD []))[1]?
            result := (splitOnChar '|' ("dev1@ping|OK|ignored").toList)[1]? } :=
  (c5_parse_result (("dev1@ping|OK|ignored").toList)).1 (by decide)

/-- C6 counterexample: `"a|1"` is accepted by `parse`, but re-encoding its
parse with the spec's `encodeMeasures` (which joins a key and its value with
`=`) yields `"a=1"`, which is not semantically equivalent to `"a|1"`: it is
not even accepted by `parse`. -/
theorem c6_counterexample :
    parse ("a|1").toList = .ok [[(("a").toList, ("1").toList)]]
  ∧ encodeMeasures [[(("a").toList, ("1").toList)]] = ("a=1").toList
  ∧ parse (encodeMeasures [[(("a").toList, ("1").toList)]]) =
      .error ⟨("Parsing group:a=1").toList⟩ :=
  ⟨rfl, rfl, rfl⟩

/-- C6 (amended): with the encoder joining each group's alternating
key/value token list with `|` (the pair separator the parser's grammar
actually uses) and the groups with `#`, every payload accepted by `parse`
round-trips semantically: re-encoding the parse yields a payload that parses
to the same sequence of groups, with the same key/value pairs in the same
order. -/
theorem c6_roundtrip (p : Str) (m : List Group) (h : parse p = .ok m) :
    parse (encodeMeasuresUL m) = .ok m := by
  have hall := mapGroups_ok_inv (splitOnChar '#' p) m h
  have hgood : ∀ grp ∈ m, goodGroup grp := by
    intro grp hgrp
    obtain ⟨g, hg, hpg⟩ := exists_left_of_forall₂ hall grp hgrp
    obtain ⟨hwf, hval⟩ := parseGroup_ok_inv g grp hpg
    exact goodGroup_of_parse p g grp hg hwf hval
  have hmne : m ≠ [] := by
    intro he
    subst he
    have hlen := hall.length_eq
    simp only [List.length_nil] at hlen
    exact splitOnChar_ne_nil '#' p (List.length_eq_zero.mp hlen)
  have henc : ∀ grp ∈ m, parseGroup (encGroup grp) = .ok grp :=
    fun grp hgrp => parseGroup_encGroup grp (hgood grp hgrp)
  have hfree : ∀ x ∈ m.map encGroup, '#' ∉ x := by
    intro x hx
    obtain ⟨grp, hgrp, rfl⟩ := List.mem_map.mp hx
    intro hcx
    unfold encGroup at hcx
    rcases mem_joinChar '|' (groupTokens grp) '#' hcx with heq | ⟨t, ht, hct⟩
    · exact absurd heq (by decide)
    · obtain ⟨q, hqm, hor⟩ := mem_groupTokens grp t ht
      obtain ⟨-, -, -, -, hh1, hh2⟩ := (hgood grp hgrp).2.2 q hqm
      rcases hor with rfl | rfl
      · exact hh1 hct
      · exact hh2 hct
  have hsplit : splitOnChar '#' (encodeMeasuresUL m) = m.map encGroup := by
    unfold encodeMeasuresUL
    exact splitOnChar_joinChar '#' (m.map encGroup) (by simpa using hmne) hfree
  unfold parse
  rw [hsplit]
  exact mapGroups_map_encGroup m henc

/-- C6 witness: `c6_roundtrip` applied at a concrete accepted payload. -/
theorem c6_roundtrip_witness :
    parse (encodeMeasuresUL
        [[(("a").toList, ("1").toList), (("b").toList, ("2").toList)],
         [(("c").toList, ("3").toList)]]) =
      .ok [[(("a").toList, ("1").toList), (("b").toList, ("2").toList)],
           [(("c").toList, ("3").toList)]] :=
  c6_roundtrip (("a|1|b|2#c|3").toList)
    [[(("a").toList, ("1").toList), (("b").toList, ("2").toList)],
     [(("c").toList, ("3").toList)]] rfl

/-- C8: a measure-group payload whose `|`-token sequence is well formed is
accepted by `parse` regardless of duplicate keys, and the resulting group
maps every key occurring more than once among the consecutive token pairs to
the value of its last occurrence (later pairs silently overwrite earlier
ones). -/
theorem c8_duplicate_keys (p : Str) (hsep : '#' ∉ p) (hwf : groupWF p)
    (k : Str)
    (hdup : 2 ≤ ((pairsOf (splitOnChar '|' p)).filter fun q => q.1 == k).length) :
    ∃ grp, parse p = .ok [grp] ∧
      lookupA grp k = lastVal (pairsOf (splitOnChar '|' p)) k ∧
      lastVal (pairsOf (splitOnChar '|' p)) k ≠ none := by
  have hone : splitOnChar '#' p = [p] := splitOnChar_of_noSep '#' p hsep
  have hparse : parse p = .ok [groupVal p] := by
    unfold parse
    rw [hone]
    rw [show mapGroups [p]
          = (parseGroup p >>= fun grp =>
              mapGroups [] >>= fun rest => pure (grp :: rest)) from rfl]
    rw [parseGroup_eq_ok p hwf]
    rfl
  refine ⟨groupVal p, hparse, ?_, ?_⟩
  · unfold groupVal
    rw [lookupA_foldPairs]
    cases hv : lastVal (pairsOf (splitOnChar '|' p)) k with
    | some w => rfl
    | none => rfl
  · have hfil : ((pairsOf (splitOnChar '|' p)).filter fun q => q.1 == k) ≠ [] := by
      intro he
      rw [he] at hdup
      simp at hdup
    obtain ⟨q, hq⟩ := List.exists_mem_of_ne_nil _ hfil
    have hqm := List.mem_filter.mp hq
    exact lastVal_ne_none_of_mem k _ q hqm.1 (by simpa using hqm.2)

/-- C8 witness: `c8_duplicate_keys` applied at `"a|1|a|2"`, whose group
repeats the key `a`. -/
theorem c8_duplicate_keys_witness :
    ∃ grp, parse ("a|1|a|2").toList = .ok [grp] ∧
      lookupA grp (("a").toList) =
        lastVal (pairsOf (splitOnChar '|' ("a|1|a|2").toList)) (("a").toList) ∧
      lastVal (pairsOf (splitOnChar '|' ("a|1|a|2").toList)) (("a").toList) ≠ none :=
  c8_duplicate_keys (("a|1|a|2").toList) (by decide) (by decide)
    (("a").toList) (by decide)

/-- C9: a payload containing an `@` but no `|` is not rejected by `result`:
the single field is the header, `deviceId` and `command` come from its
`@`-split, and the `result` field is absent (`fields[1]` is `undefined`),
even though the command-result grammar expects a `|`-separated result
segment. -/
theorem c9_result_no_pipe (p : Str) (hat : '@' ∈ p) (hpipe : '|' ∉ p) :
    result p =
      .ok { deviceId := (splitOnChar '@' p).headD []
            command := (splitOnChar '@' p)[1]?
            result := none } := by
  have hfields : splitOnChar '|' p = [p] := splitOnChar_of_noSep '|' p hpipe
  rw [result_eq, hfields]
  rw [if_neg (not_or.mpr ⟨by simp, not_not_intro (by simpa using hat)⟩)]
  rfl

/-- C9 witness: `c9_result_no_pipe` applied at `"dev1@ping"`. -/
theorem c9_result_no_pipe_witness :
    result ("dev1@ping").toList =
      .ok { deviceId := (splitOnChar '@' ("dev1@ping").toList).headD []
            command := (splitOnChar '@' ("dev1@ping").toList)[1]?
            result := none } :=
  c9_result_no_pipe (("dev1@ping").toList) (by decide) (by decide)

/-- C10 counterexample: the claim states that `command` succeeds on every
payload whose first `|`-field contains more than one `@`; on the code,
`command "a@b@c|x"` (whose header contains two `@`) throws a `ParseError`,
because the trailing field `"x"` does not split into two parts on `=`. -/
theorem c10_counterexample :
    ((splitOnChar '|' ("a@b@c|x").toList).headD []).count '@' = 2
  ∧ command ("a@b@c|x").toList = .error ⟨("Extracting attribute:x").toList⟩ :=
  ⟨by decide, rfl⟩

/-- C10 (amended): for every payload whose first `|`-field contains more than
one `@`, `result` succeeds, and `command` succeeds provided every trailing
field splits into exactly two parts on `=`; both take the text before the
first `@` as `deviceId` and the text between the first and second `@` as
`command`, silently discarding the remaining `@`-segments of the header. -/
theorem c10_multi_at_header (p d c r : Str)
    (hf : (splitOnChar '|' p).headD [] = d ++ '@' :: (c ++ '@' :: r))
    (hd : '@' ∉ d) (hc : '@' ∉ c) :
    (∃ res, result p = .ok res ∧ res.deviceId = d ∧ res.command = some c)
  ∧ ((∀ a ∈ (splitOnChar '|' p).drop 1, (splitOnChar '=' a).length = 2) →
      ∃ cmd, command p = .ok cmd ∧ cmd.deviceId = d ∧ cmd.command = some c) := by
  have hat : '@' ∈ (splitOnChar '|' p).headD [] := by
    rw [hf]
    exact List.mem_append.mpr (Or.inr (List.mem_cons_self _ _))
  have hdd : splitOnChar '@' ((splitOnChar '|' p).headD [])
      = d :: c :: splitOnChar '@' r := by
    rw [hf, splitOnChar_append_sep '@' d _ hd, splitOnChar_append_sep '@' c _ hc]
  constructor
  · have hres : result p =
        .ok { deviceId := d, command := some c, result := (splitOnChar '|' p)[1]? } := by
      rw [result_eq, if_neg (not_or.mpr ⟨fields_length_ge_one p, not_not_intro hat⟩), hdd]
      rfl
    exact ⟨_, hres, rfl, rfl⟩
  · intro hgoodf
    obtain ⟨ps, hps⟩ := foldAttr_ok '=' ((splitOnChar '|' p).drop 1) [] hgoodf
    have hcmd : command p = .ok { deviceId := d, command := some c, params := ps } := by
      rw [command_eq, if_neg (not_or.mpr ⟨fields_length_ge_one p, not_not_intro hat⟩),
        hps, hdd]
      rfl
    exact ⟨_, hcmd, rfl, rfl⟩

/-- C10 witness: `c10_multi_at_header` applied at `"a@b@c"`. -/
theorem c10_multi_at_header_witness :
    (∃ res, result ("a@b@c").toList = .ok res ∧
       res.deviceId = ("a").toList ∧ res.command = some (("b").toList))
  ∧ ∃ cmd, command ("a@b@c").toList = .ok cmd ∧
      cmd.deviceId = ("a").toList ∧ cmd.command = some (("b").toList) :=
  ⟨(c10_multi_at_header (("a@b@c").toList) (("a").toList) (("b").toList)
      (("c").toList) (by decide) (by decide) (by decide)).1,
   (c10_multi_at_header (("a@b@c").toList) (("a").toList) (("b").toList)
      (("c").toList) (by decide) (by decide) (by decide)).2 (by decide)⟩

end UL

namespace Agent

/-! ### Lemmas about the dispatcher combinators -/

theorem foldl_addHandler {ε : Type} :
    ∀ (bindings : List (Binding ε)) (acc : List (String × Except ε Unit)),
      bindings.foldl addHandler acc = acc ++ handlerTasks bindings
  | [], acc => by simp [handlerTasks]
  | b :: bs, acc => by
    rw [List.foldl_cons, foldl_addHandler bs (addHandler acc b)]
    unfold addHandler handlerTasks
    cases hb : b.handler with
    | none => simp [List.filterMap_cons, hb]
    | some h => simp [List.filterMap_cons, hb]

theorem seriesRun_all_ok {ε : Type} :
    ∀ ts : List (String × Except ε Unit), (∀ t ∈ ts, t.2 = .ok ()) →
      seriesRun ts = (ts.map Prod.fst, .ok (ts.map fun _ => ()))
  | [], _ => rfl
  | (n, res) :: ts, h => by
    have hres : res = .ok () := h (n, res) (List.mem_cons_self _ _)
    subst hres
    rw [show seriesRun ((n, Except.ok ()) :: ts)
          = (n :: (seriesRun ts).1,
             Except.map (fun us => () :: us) (seriesRun ts).2) from rfl]
    rw [seriesRun_all_ok ts (fun t ht => h t (List.mem_cons_of_mem _ ht))]
    rfl

theorem seriesRun_first_error {ε : Type} (n : String) (e : ε)
    (post : List (String × Except ε Unit)) :
    ∀ pre : List (String × Except ε Unit), (∀ t ∈ pre, t.2 = .ok ()) →
      seriesRun (pre ++ (n, Except.error e) :: post)
        = (pre.map Prod.fst ++ [n], .error e)
  | [], _ => rfl
  | (m, res) :: pre, h => by
    have hres : res = .ok () := h (m, res) (List.mem_cons_self _ _)
    subst hres
    rw [List.cons_append]
    rw [show seriesRun ((m, Except.ok ()) :: (pre ++ (n, Except.error e) :: post))
          = (m :: (seriesRun (pre ++ (n, Except.error e) :: post)).1,
             Except.map (fun us => () :: us)
               (seriesRun (pre ++ (n, Except.error e) :: post)).2) from rfl]
    rw [seriesRun_first_error n e post pre (fun t ht => h t (List.mem_cons_of_mem _ ht))]
    rfl

theorem collectResults_all_ok {ε : Type} :
    ∀ ts : List (String × Except ε Unit), (∀ t ∈ ts, t.2 = .ok ()) →
      collectResults ts = .ok (ts.map fun _ => ())
  | [], _ => rfl
  | (n, res) :: ts, h => by
    have hres : res = .ok () := h (n, res) (List.mem_cons_self _ _)
    subst hres
    rw [show collectResults ((n, Except.ok ()) :: ts)
          = Except.map (fun us => () :: us) (collectResults ts) from rfl]
    rw [collectResults_all_ok ts (fun t ht => h t (List.mem_cons_of_mem _ ht))]
    rfl

theorem collectResults_ok_inv {ε : Type} :
    ∀ (ts : List (String × Except ε Unit)) (us : List Unit),
      collectResults ts = .ok us → ∀ t ∈ ts, t.2 = .ok ()
  | [], _, _ => by intro t ht; simp at ht
  | (n, res) :: ts, us, h => by
    intro t ht
    cases res with
    | error e =>
      rw [show collectResults ((n, Except.error e) :: ts) = .error e from rfl] at h
      exact Except.noConfusion h
    | ok u =>
      rw [show collectResults ((n, Except.ok u) :: ts)
            = Except.map (fun vs => u :: vs) (collectResults ts) from rfl] at h
      cases hts : collectResults ts with
      | error e => rw [hts] at h; exact Except.noConfusion h
      | ok vs =>
        rcases List.mem_cons.mp ht with rfl | ht
        · rfl
        · exact collectResults_ok_inv ts vs hts t ht

theorem collectResults_first_error {ε : Type} (n : String) (e : ε)
    (post : List (String × Except ε Unit)) :
    ∀ pre : List (String × Except ε Unit), (∀ t ∈ pre, t.2 = .ok ()) →
      collectResults (pre ++ (n, Except.error e) :: post) = .error e
  | [], _ => rfl
  | (m, res) :: pre, h => by
    have hres : res = .ok () := h (m, res) (List.mem_cons_self _ _)
    subst hres
    rw [List.cons_append]
    rw [show collectResults ((m, Except.ok ()) :: (pre ++ (n, Except.error e) :: post))
          = Except.map (fun us => () :: us)
              (collectResults (pre ++ (n, Except.error e) :: post)) from rfl]
    rw [collectResults_first_error n e post pre
      (fun t ht => h t (List.mem_cons_of_mem _ ht))]
    rfl

/-! ### Claim theorems for the dispatcher and lifecycle -/

/-- C1: for every event and registry state, `applyFunctionFromBinding` (the
spec's `broadcast`) invokes exactly the handlers of the bindings that
implement one, strictly in registration order, each awaited before the
next: when no binding implements the handler it succeeds with no work; when
all collected handlers succeed, every one is invoked in order and the call
succeeds; and when the handlers before some failing handler succeed, the
invocation list stops at the failing handler (later bindings are not
invoked) and its error becomes the aggregate result. -/
theorem c1_broadcast (ε : Type) (bindings : List (Binding ε)) :
    (handlerTasks bindings = [] → applyFunctionFromBinding bindings = ([], .ok []))
  ∧ ((∀ t ∈ handlerTasks bindings, t.2 = .ok ()) →
      applyFunctionFromBinding bindings
        = ((handlerTasks bindings).map Prod.fst,
           .ok ((handlerTasks bindings).map fun _ => ())))
  ∧ (∀ pre n e post, handlerTasks bindings = pre ++ (n, Except.error e) :: post →
      (∀ t ∈ pre, t.2 = .ok ()) →
      applyFunctionFromBinding bindings = (pre.map Prod.fst ++ [n], .error e)) := by
  have hfold : bindings.foldl addHandler [] = handlerTasks bindings := by
    simpa using foldl_addHandler bindings []
  refine ⟨?_, ?_, ?_⟩
  · intro h
    unfold applyFunctionFromBinding
    rw [hfold, h]
    rfl
  · intro h
    unfold applyFunctionFromBinding
    rw [hfold]
    exact seriesRun_all_ok _ h
  · intro pre n e post hsplit hok
    unfold applyFunctionFromBinding
    rw [hfold, hsplit]
    exact seriesRun_first_error n e post pre hok

/-- C1 witness: `c1_broadcast` applied to the spec's test registry
`[A (no handler), B (handler fails), C (handler)]`: only B's handler is
invoked and the call fails with B's error. -/
theorem c1_broadcast_witness :
    applyFunctionFromBinding
      [⟨"A", Except.ok (), none⟩,
       ⟨"B", Except.ok (), some (Except.error "boom")⟩,
       ⟨"C", Except.ok (), some (Except.ok ())⟩]
      = (["B"], Except.error "boom") :=
  (c1_broadcast String
      [⟨"A", Except.ok (), none⟩,
       ⟨"B", Except.ok (), some (Except.error "boom")⟩,
       ⟨"C", Except.ok (), some (Except.ok ())⟩]).2.2
    [] "B" "boom" [("C", Except.ok ())] rfl (by intro t ht; simp at ht)

/-- C2 counterexample: the claim states that `stop` runs `stopAll`, then
`resetMiddlewares`, then `deactivate` regardless of intermediate errors;
on the code, when `stopTransportBindings` fails, `async.series`
short-circuits and neither `resetMiddlewares` nor `deactivate` is invoked —
though `stop` still reports success. -/
theorem c2_stop_counterexample :
    stop (⟨Except.error "binding stop failed", Except.ok (), Except.ok ()⟩ :
        StopSteps String)
      = (["stopTransportBindings"], Except.ok ())
  ∧ "deactivate" ∉
      (stop (⟨Except.error "binding stop failed", Except.ok (), Except.ok ()⟩ :
          StopSteps String)).1 := by
  refine ⟨rfl, ?_⟩
  intro hmem
  rw [show (stop (⟨Except.error "binding stop failed", Except.ok (), Except.ok ()⟩ :
      StopSteps String)).1 = ["stopTransportBindings"] from rfl] at hmem
  simp at hmem

/-- C2 (amended): `stop` runs `stopTransportBindings`, then
`resetMiddlewares`, then `deactivate` in that fixed order but
short-circuits at the first failing step, skipping the remaining ones; in
every case it completes and reports success (no error) to its caller. -/
theorem c2_stop_amended (ε : Type) (env : StopSteps ε) :
    (stop env).2 = .ok ()
  ∧ (stop env).1 =
      (match env.stopAllResult, env.resetMiddlewaresResult with
       | Except.error _, _ => ["stopTransportBindings"]
       | Except.ok _, Except.error _ => ["stopTransportBindings", "resetMiddlewares"]
       | Except.ok _, Except.ok _ =>
           ["stopTransportBindings", "resetMiddlewares", "deactivate"]) := by
  rcases env with ⟨s, r, d⟩
  cases s <;> cases r <;> cases d <;> exact ⟨rfl, rfl⟩

/-- C7: `startTransportBindings` (the spec's `startAll`) dispatches `start`
on every registered binding, even when some of them fail (no short-circuit
before dispatch); it succeeds exactly when every binding's `start`
succeeds; and when the bindings before some failing binding succeed, that
first error is surfaced as the aggregate error. -/
theorem c7_start_all (ε : Type) (bindings : List (Binding ε)) :
    (startTransportBindings bindings).1 = bindings.map Binding.name
  ∧ ((∃ us, (startTransportBindings bindings).2 = .ok us) ↔
      ∀ b ∈ bindings, b.startResult = .ok ())
  ∧ (∀ pre b post e, bindings = pre ++ b :: post →
      (∀ a ∈ pre, a.startResult = .ok ()) → b.startResult = .error e →
      (startTransportBindings bindings).2 = .error e) := by
  refine ⟨?_, ⟨?_, ?_⟩, ?_⟩
  · unfold startTransportBindings asyncMapRun
    rw [List.map_map]
    rfl
  · rintro ⟨us, hus⟩ b hb
    unfold startTransportBindings asyncMapRun at hus
    exact collectResults_ok_inv _ us hus (b.name, b.startResult)
      (List.mem_map.mpr ⟨b, hb, rfl⟩)
  · intro h
    unfold startTransportBindings asyncMapRun
    refine ⟨(bindings.map fun b => (b.name, b.startResult)).map fun _ => (), ?_⟩
    exact collectResults_all_ok _ (by
      intro t ht
      obtain ⟨b, hb, rfl⟩ := List.mem_map.mp ht
      exact h b hb)
  · intro pre b post e hsplit hpre herr
    unfold startTransportBindings asyncMapRun
    rw [hsplit, List.map_append, List.map_cons, herr]
    exact collectResults_first_error b.name e _ _ (by
      intro t ht
      obtain ⟨a, ha, rfl⟩ := List.mem_map.mp ht
      exact hpre a ha)

/-- C7 witness: `c7_start_all` applied to a registry of three bindings
whose middle `start` fails: all three are dispatched and the aggregate
fails with the middle binding's error. -/
theorem c7_start_all_witness :
    (startTransportBindings
        [⟨"A", Except.ok (), none⟩,
         ⟨"B", Except.error "boom", none⟩,
         ⟨"C", Except.ok (), none⟩]).1 = ["A", "B", "C"]
  ∧ (startTransportBindings
        [⟨"A", Except.ok (), none⟩,
         ⟨"B", (Except.error "boom" : Except String Unit), none⟩,
         ⟨"C", Except.ok (), none⟩]).2 = Except.error "boom" :=
  ⟨(c7_start_all String
      [⟨"A", Except.ok (), none⟩,
       ⟨"B", Except.error "boom", none⟩,
       ⟨"C", Except.ok (), none⟩]).1,
   (c7_start_all String
      [⟨"A", Except.ok (), none⟩,
       ⟨"B", Except.error "boom", none⟩,
       ⟨"C", Except.ok (), none⟩]).2.2
     [⟨"A", Except.ok (), none⟩] ⟨"B", Except.error "boom", none⟩
     [⟨"C", Except.ok (), none⟩] "boom" rfl
     (by
       intro a ha
       rw [List.mem_singleton] at ha
       subst ha
       rfl)
     rfl⟩

end Agent
